import Mathlib

/-!
Verification of the DNA research platform's storage and evidence core.

The repository ships the portal (React, `portal/src`), the SQL schema for the
anchor/diff store, and the documentation of the core; the core services
themselves (diff codec, materialization, theory evidence accumulator, lineage
tracker) are documented but their implementation is not part of the source
tree. Those operations are modelled from the specification, as marked on each
definition; the portal's request builders are embedded from
`portal/src/services/api.js` and `portal/src/components/EvidenceManagement.js`.
-/

/-! ## Diff codec data model (spec section 3 and 4.1) -/

/-- Per-position payload of one variant record: the allele observed at the
position together with the record's own confidence score. -/
structure VarData where
  allele : String
  quality : ℚ
deriving DecidableEq, Repr

/-- A variant set is a finite map from genomic position to variant payload,
kept as an association list; section 3's data model requires at most one
record per position, which appears below as a Nodup hypothesis on keys. -/
abbrev VariantSet := List (Nat × VarData)

/-- Look up the variant recorded at a position. -/
def lookupVar (vs : VariantSet) (p : Nat) : Option VarData :=
  (vs.find? (fun w => w.1 == p)).map Prod.snd

/-- The positions carried by a variant set. -/
def positionsOf (vs : VariantSet) : List Nat :=
  vs.map Prod.fst

/-- All positions present in either the anchor or the individual set. -/
def unionPositions (anchor individual : VariantSet) : List Nat :=
  (positionsOf anchor ++ positionsOf individual).dedup

/-- Modelled from the spec: a Diff Entry (section 3). `reference_allele` is the
anchor's allele at the position (none when the variant is novel, the anchor's
allele being the implicit reference); `alternate` is the individual's full
record there, and `none` records that the individual carries no variant at an
anchor-listed position, which the round-trip contract of section 4.1 requires
to be expressible. -/
structure DiffEntry where
  position : Nat
  reference_allele : Option String
  alternate : Option VarData
deriving DecidableEq, Repr

/-- Modelled from the spec: the single-position case of `computeDiff`
(section 4.1) — emit an entry exactly when the individual's record at the
position differs from the anchor's. -/
def diffAt (anchor individual : VariantSet) (p : Nat) : Option DiffEntry :=
  if lookupVar individual p = lookupVar anchor p then none
  else some { position := p
              reference_allele := (lookupVar anchor p).map VarData.allele
              alternate := lookupVar individual p }

/-- Modelled from the spec: `computeDiff(anchorVariants, individualVariants)`
(section 4.1) — one Diff Entry per position, drawn from every position present
in either set, where the individual disagrees with the anchor. -/
def computeDiff (anchor individual : VariantSet) : List DiffEntry :=
  (unionPositions anchor individual).filterMap (diffAt anchor individual)

/-- Find the diff supplied for a position, if any. -/
def findDiff (diffs : List DiffEntry) (p : Nat) : Option DiffEntry :=
  diffs.find? (fun d => d.position == p)

/-- Modelled from the spec: the anchor-position half of `applyDiff`
(section 4.1) — keep the anchor's record unless a diff overrides it there. -/
def overrideEntry (diffs : List DiffEntry) (w : Nat × VarData) : Option (Nat × VarData) :=
  match findDiff diffs w.1 with
  | none => some w
  | some d => d.alternate.map (fun x => (w.1, x))

/-- Modelled from the spec: the novel-position half of `applyDiff`
(section 4.1) — a diff at a position absent from the anchor is inserted. -/
def novelEntry (anchor : VariantSet) (d : DiffEntry) : Option (Nat × VarData) :=
  if lookupVar anchor d.position = none then d.alternate.map (fun x => (d.position, x))
  else none

/-- Modelled from the spec: `applyDiff(anchorVariants, diffs)` (section 4.1) —
for every anchor position use the anchor record unless a diff overrides it;
for every diff position not present in the anchor, insert it. A pure function
of its two arguments. -/
def applyDiff (anchor : VariantSet) (diffs : List DiffEntry) : VariantSet :=
  anchor.filterMap (overrideEntry diffs) ++ diffs.filterMap (novelEntry anchor)

/-! ## Diff store (section 3's Diff Entry invariant; table `genomic_differences`
of the SQL schema) -/

/-- One row of the `genomic_differences` table, fields as in the SQL schema. -/
structure DiffRow where
  diff_id : String
  anchor_id : String
  individual_id : String
  position : Nat
  reference_allele : String
  alternate_allele : String
  quality_score : ℚ
deriving DecidableEq, Repr

/-- Two rows address the same storage slot: same anchor, individual and
position. -/
def sameSlot (r d : DiffRow) : Bool :=
  r.anchor_id == d.anchor_id && r.individual_id == d.individual_id && r.position == d.position

/-- Rows of the store addressing a given `(anchor_id, individual_id, position)`
slot. -/
def slotPred (a i : String) (p : Nat) (r : DiffRow) : Bool :=
  r.anchor_id == a && r.individual_id == i && r.position == p

/-- Modelled from the spec: a write into the diff store (section 3) — a later
write at an already-occupied `(anchor_id, individual_id, position)` slot
replaces the existing entry, otherwise the row is appended. The write path is
not part of the source tree; only the `genomic_differences` schema is. -/
def writeDiff (store : List DiffRow) (d : DiffRow) : List DiffRow :=
  if store.any (fun r => sameSlot r d) then
    store.map (fun r => if sameSlot r d then d else r)
  else store ++ [d]

/-- Diff-store states reachable from the empty store by writes. -/
inductive ReachableDiffStore : List DiffRow → Prop
  | empty : ReachableDiffStore []
  | write (s : List DiffRow) (d : DiffRow) :
      ReachableDiffStore s → ReachableDiffStore (writeDiff s d)

/-! ## Theory evidence accumulator (section 4.4) -/

/-- The closed evidence-type enumeration of section 3. -/
inductive EvidenceType where
  | execution
  | variant_segregation
  | pathway_analysis
  | literature_review
  | manual_entry
deriving DecidableEq, Repr

/-- An Evidence Record (section 3). -/
structure EvidenceRecord where
  theory_id : String
  theory_version : String
  family_id : String
  bayes_factor : ℚ
  weight : ℚ
  evidence_type : EvidenceType
  source : String
  timestamp : Nat
deriving DecidableEq, Repr

/-- The error taxonomy entries the accumulator can surface (section 7). -/
inductive EvidenceError where
  | invalidEvidence
  | notFound
deriving DecidableEq, Repr

/-- Support classes for a posterior (section 3). -/
inductive SupportClass where
  | weak
  | moderate
  | strong
deriving DecidableEq, Repr

namespace Accumulator

/-- Modelled from the spec: `addEvidence` (section 4.4) — validate
`bayes_factor > 0` and `weight > 0`, else `InvalidEvidence`; on success append
the record to the log. The accumulator service is not part of the source tree;
only its portal caller is. -/
def addEvidence (log : List EvidenceRecord) (e : EvidenceRecord) :
    Except EvidenceError (List EvidenceRecord) :=
  if 0 < e.bayes_factor ∧ 0 < e.weight then Except.ok (log ++ [e])
  else Except.error EvidenceError.invalidEvidence

/-- The Evidence Records of the log belonging to one theory version. -/
def recordsFor (log : List EvidenceRecord) (tid ver : String) : List EvidenceRecord :=
  log.filter (fun e => e.theory_id == tid && e.theory_version == ver)

/-- Number of evidence items a family has contributed to a record list. -/
def familyCount (recs : List EvidenceRecord) (fam : String) : Nat :=
  recs.countP (fun e => e.family_id == fam)

/-- Modelled from the spec: the small-sample shrinkage exponent, the concrete
monotone function named in section 9 (`1 - 1/(1 + evidence_count)`), bounded by
1 and increasing toward 1 as a family accumulates evidence items. -/
def shrink (n : ℕ) : ℚ :=
  1 - 1 / (1 + n)

/-- Modelled from the spec: the posterior formula of section 4.4,
`prior * bf / (prior * bf + (1 - prior))`. -/
noncomputable def posteriorVal (prior bf : ℝ) : ℝ :=
  prior * bf / (prior * bf + (1 - prior))

/-- Modelled from the spec: the support classification of section 4.4 —
below 0.5 Weak, from 0.5 up to but excluding 0.9 Moderate, from 0.9 Strong. -/
noncomputable def supportClass (p : ℝ) : SupportClass :=
  if p < 1/2 then SupportClass.weak
  else if p < 9/10 then SupportClass.moderate
  else SupportClass.strong

/-- Modelled from the spec: the accumulated Bayes factor of section 4.4,
the product over all records of `bayes_factor ^ shrink(family)`, the shrink
exponent taken at the record's family's item count in the record list. -/
noncomputable def accumulatedBF (recs : List EvidenceRecord) : ℝ :=
  (recs.map (fun e =>
    (e.bayes_factor : ℝ) ^ ((shrink (familyCount recs e.family_id) : ℚ) : ℝ))).prod

/-- Number of distinct families appearing in a record list. -/
def familiesAnalyzed (recs : List EvidenceRecord) : Nat :=
  ((recs.map EvidenceRecord.family_id).dedup).length

/-- A Posterior Snapshot (section 3), always recomputed from the record log. -/
structure PosteriorSnapshot where
  prior : ℝ
  accumulated_bayes_factor : ℝ
  posterior : ℝ
  support_class : SupportClass
  evidence_count : Nat
  families_analyzed : Nat

/-- Modelled from the spec: assemble the Posterior Snapshot for a record
list and a prior (section 4.4). -/
noncomputable def snapshotOf (recs : List EvidenceRecord) (prior : ℝ) : PosteriorSnapshot :=
  { prior := prior
    accumulated_bayes_factor := accumulatedBF recs
    posterior := posteriorVal prior (accumulatedBF recs)
    support_class := supportClass (posteriorVal prior (accumulatedBF recs))
    evidence_count := recs.length
    families_analyzed := familiesAnalyzed recs }

/-- Modelled from the spec: `getPosterior(theory_id, version, prior)`
(section 4.4) — aggregate lazily over the Evidence Records of that theory
version. -/
noncomputable def getPosterior (log : List EvidenceRecord) (tid ver : String) (prior : ℝ) :
    PosteriorSnapshot :=
  snapshotOf (recordsFor log tid ver) prior

end Accumulator

/-! ## Theory lineage tracker (section 4.5) -/

/-- A Theory entity (section 3); `criteria` and the evidence-model prior stand
in for the structured match rules and weights the claims do not inspect. -/
structure Theory where
  theory_id : String
  version : String
  parent_theory_id : Option String
  scope : String
  criteria : List String
  prior : ℚ
deriving DecidableEq, Repr

/-- The registry of theories together with the evidence log. -/
structure LineageState where
  registry : List Theory
  evidence : List EvidenceRecord
deriving DecidableEq, Repr

/-- Lineage error taxonomy (section 7). -/
inductive LineageError where
  | notFound
deriving DecidableEq, Repr

/-- Look up a theory by id alone (the parent pointers store ids). -/
def lookupTheory (reg : List Theory) (id : String) : Option Theory :=
  reg.find? (fun t => t.theory_id == id)

/-- Look up a theory by id and version. -/
def lookupTheoryVersion (reg : List Theory) (id ver : String) : Option Theory :=
  reg.find? (fun t => t.theory_id == id && t.version == ver)

/-- Walk the parent chain, nearest ancestor first; fuel bounds the walk by the
registry size so a (never expected) cycle cannot diverge. -/
def ancestryAux (reg : List Theory) : Nat → String → List String
  | 0, _ => []
  | fuel + 1, id =>
    match lookupTheory reg id with
    | none => []
    | some t =>
      match t.parent_theory_id with
      | none => []
      | some pid => pid :: ancestryAux reg fuel pid

/-- Modelled from the spec: `getAncestry(theory_id)` (section 4.5) — the
ordered list of ancestor theory ids, nearest first. -/
def getAncestry (s : LineageState) (id : String) : List String :=
  ancestryAux s.registry s.registry.length id

/-- Modelled from the spec: `getChildren(theory_id)` (section 4.5) — the direct
forks of a theory. -/
def getChildren (s : LineageState) (id : String) : List String :=
  (s.registry.filter (fun t => t.parent_theory_id == some id)).map Theory.theory_id

/-- The Evidence Records recorded against one theory version of the state. -/
def evidenceFor (s : LineageState) (id ver : String) : List EvidenceRecord :=
  s.evidence.filter (fun e => e.theory_id == id && e.theory_version == ver)

/-- Modelled from the spec: `fork(parent_theory_id, parent_version,
new_theory_id)` (section 4.5) — create a new Theory at version 1.0.0 with
`parent_theory_id` set to the source, inheriting `criteria` and the evidence
model; Evidence Records are never copied. Unknown parent is `NotFound`. -/
def fork (s : LineageState) (parent_id parent_version new_id : String) :
    Except LineageError LineageState :=
  match lookupTheoryVersion s.registry parent_id parent_version with
  | none => Except.error LineageError.notFound
  | some p =>
    Except.ok
      { registry := s.registry ++
          [{ theory_id := new_id
             version := "1.0.0"
             parent_theory_id := some parent_id
             scope := p.scope
             criteria := p.criteria
             prior := p.prior }]
        evidence := s.evidence }

/-! ## Portal request builders (embedded from `portal/src/services/api.js`) -/

/-- The request issued by the portal's posterior read: URL and query
parameters, as built by `theoryService.getPosterior` in `api.js`. -/
structure PosteriorRequest where
  url : String
  theory_version : String
  prior : ℚ
deriving DecidableEq, Repr

namespace Portal

/-- Embedded from `api.js` `theoryService.getPosterior(theoryId,
theoryVersion, prior = 0.1)`: an omitted `prior` argument (modelled as `none`)
falls back to the declared default of 0.1 before the request is issued. -/
def getPosterior (theoryId theoryVersion : String) (prior : Option ℚ) : PosteriorRequest :=
  { url := "/theories/" ++ theoryId ++ "/posterior"
    theory_version := theoryVersion
    prior := prior.getD (1/10) }

end Portal

/-! ## Claim C9: identical data produces zero diffs -/

/-- C9: for every anchor variant set `A`, `computeDiff(A, A) = []` — a position
where the individual's allele agrees with the anchor's produces no Diff
Entry. -/
theorem c9_diff_minimality (A : VariantSet) : computeDiff A A = [] := by
  simp [computeDiff, diffAt]

/-! ## Association-list lemmas for the diff codec -/

theorem lookupVar_eq_none_iff (vs : VariantSet) (p : Nat) :
    lookupVar vs p = none ↔ p ∉ positionsOf vs := by
  simp only [lookupVar, Option.map_eq_none', List.find?_eq_none, positionsOf, List.mem_map]
  constructor
  · rintro h ⟨w, hw, rfl⟩
    exact absurd (beq_self_eq_true w.1) (by simpa using h w hw)
  · intro h w hw
    simp only [beq_iff_eq]
    intro hwp
    exact h ⟨w, hw, hwp⟩

theorem find?_key_of_mem_of_eq (vs : VariantSet) (w : Nat × VarData)
    (h : vs.find? (fun u => u.1 == w.1) = some w) : w ∈ vs :=
  List.mem_of_find?_eq_some h

theorem find?_key_some_fst (vs : VariantSet) (p : Nat) (w : Nat × VarData)
    (h : vs.find? (fun u => u.1 == p) = some w) : w.1 = p := by
  have := List.find?_some h
  simpa using this

/-- A key-respecting filterMap over a list with distinct keys: searching the
output for a key finds exactly the image of the input entry with that key. -/
theorem find?_filterMap_key {α β : Type} (f : α → Option β) (K : α → Nat) (kb : β → Nat)
    (hpres : ∀ x y, f x = some y → kb y = K x) (l : List α) (p : Nat)
    (hnd : (l.map K).Nodup) :
    (l.filterMap f).find? (fun y => kb y == p) =
      match l.find? (fun x => K x == p) with
      | none => none
      | some x => f x := by
  induction l with
  | nil => simp
  | cons h t ih =>
    have hnd' : (t.map K).Nodup := (List.nodup_cons.mp (by simpa using hnd)).2
    have hmem : K h ∉ t.map K := (List.nodup_cons.mp (by simpa using hnd)).1
    by_cases hKp : K h = p
    · subst hKp
      have htnone : (t.filterMap f).find? (fun y => kb y == K h) = none := by
        rw [List.find?_eq_none]
        intro y hy
        obtain ⟨x, hx, hfx⟩ := List.mem_filterMap.mp hy
        have : kb y = K x := hpres x y hfx
        simp only [beq_iff_eq, this]
        intro hKx
        exact hmem (List.mem_map.mpr ⟨x, hx, hKx.symm ▸ rfl⟩)
      cases hfh : f h with
      | none =>
        simp only [List.filterMap_cons, hfh, List.find?_cons_of_neg, List.find?,
          beq_self_eq_true]
        rw [htnone]
      | some y =>
        have hkb : kb y = K h := hpres h y hfh
        simp only [List.filterMap_cons, hfh, List.find?, beq_self_eq_true, hkb, beq_self_eq_true]
    · have hfind : (h :: t).find? (fun x => K x == p) = t.find? (fun x => K x == p) := by
        rw [List.find?_cons_of_neg]
        simpa using hKp
      rw [hfind, ← ih hnd']
      cases hfh : f h with
      | none => simp [List.filterMap_cons, hfh]
      | some y =>
        have hkb : kb y = K h := hpres h y hfh
        rw [List.filterMap_cons, hfh, List.find?_cons_of_neg]
        simp [hkb, hKp]

/-- Searching a list of naturals for a given value. -/
theorem find?_beq_self (l : List Nat) (p : Nat) :
    l.find? (fun x => x == p) = if p ∈ l then some p else none := by
  induction l with
  | nil => simp
  | cons h t ih =>
    by_cases hp : h = p
    · subst hp
      simp [List.find?]
    · rw [List.find?_cons_of_neg _ (by simpa using hp), ih]
      simp [hp, Ne.symm hp]

/-- The keys of a key-respecting filterMap form a sublist of the input keys. -/
theorem map_filterMap_key_sublist {α β : Type} (f : α → Option β) (K : α → Nat) (kb : β → Nat)
    (hpres : ∀ x y, f x = some y → kb y = K x) (l : List α) :
    ((l.filterMap f).map kb).Sublist (l.map K) := by
  induction l with
  | nil => simp
  | cons h t ih =>
    cases hfh : f h with
    | none =>
      rw [List.filterMap_cons, hfh, List.map_cons]
      exact ih.cons (K h)
    | some y =>
      rw [List.filterMap_cons, hfh, List.map_cons, List.map_cons, hpres h y hfh]
      exact ih.cons₂ (K h)

theorem lookupVar_eq_some_iff (vs : VariantSet) (hnd : (positionsOf vs).Nodup)
    (p : Nat) (d : VarData) : lookupVar vs p = some d ↔ (p, d) ∈ vs := by
  constructor
  · intro h
    simp only [lookupVar, Option.map_eq_some'] at h
    obtain ⟨w, hw, hsnd⟩ := h
    have h1 := find?_key_some_fst vs p w hw
    have h2 := List.mem_of_find?_eq_some hw
    have : w = (p, d) := by
      cases w
      simp_all
    exact this ▸ h2
  · intro h
    induction vs with
    | nil => simp at h
    | cons w t ih =>
      have hnd' : (positionsOf t).Nodup := (List.nodup_cons.mp (by simpa [positionsOf] using hnd)).2
      have hmem : w.1 ∉ positionsOf t :=
        (List.nodup_cons.mp (by simpa [positionsOf] using hnd)).1
      rcases List.mem_cons.mp h with heq | hmemt
      · subst heq
        simp [lookupVar, List.find?]
      · have hne : w.1 ≠ p := by
          intro hw
          exact hmem (hw ▸ List.mem_map.mpr ⟨(p, d), hmemt, rfl⟩)
        rw [lookupVar, List.find?_cons_of_neg _ (by simpa using hne)]
        exact ih hnd' hmemt

theorem diffAt_eq_some {a v : VariantSet} {p : Nat} {e : DiffEntry}
    (h : diffAt a v p = some e) :
    e.position = p ∧ e.alternate = lookupVar v p ∧ lookupVar v p ≠ lookupVar a p := by
  unfold diffAt at h
  split at h
  · cases h
  · next hne =>
    simp only [Option.some.injEq] at h
    subst h
    exact ⟨rfl, rfl, hne⟩

theorem findDiff_computeDiff (a v : VariantSet) (p : Nat) :
    findDiff (computeDiff a v) p =
      if p ∈ unionPositions a v then diffAt a v p else none := by
  unfold findDiff computeDiff
  rw [find?_filterMap_key (diffAt a v) (fun q => q) DiffEntry.position
    (fun x y hy => (diffAt_eq_some hy).1) (unionPositions a v) p
    (by simpa using List.nodup_dedup (positionsOf a ++ positionsOf v)),
    find?_beq_self]
  by_cases hp : p ∈ unionPositions a v <;> simp [hp]

theorem computeDiff_keys_nodup (a v : VariantSet) :
    ((computeDiff a v).map DiffEntry.position).Nodup := by
  have hsub := map_filterMap_key_sublist (diffAt a v) (fun q => q) DiffEntry.position
    (fun x y hy => (diffAt_eq_some hy).1) (unionPositions a v)
  exact hsub.nodup (by simpa using List.nodup_dedup (positionsOf a ++ positionsOf v))

theorem overrideEntry_key (D : List DiffEntry) (w u : Nat × VarData)
    (h : overrideEntry D w = some u) : u.1 = w.1 := by
  unfold overrideEntry at h
  cases hf : findDiff D w.1 with
  | none =>
    rw [hf] at h
    have h' : some w = some u := h
    obtain rfl : w = u := Option.some.inj h'
    rfl
  | some d =>
    rw [hf] at h
    have h' : d.alternate.map (fun x => (w.1, x)) = some u := h
    cases hd : d.alternate with
    | none => rw [hd] at h'; cases h'
    | some x =>
      rw [hd] at h'
      simp only [Option.map_some', Option.some.injEq] at h'
      subst h'
      rfl

theorem novelEntry_some {A : VariantSet} {d : DiffEntry} {u : Nat × VarData}
    (h : novelEntry A d = some u) : u.1 = d.position ∧ lookupVar A d.position = none := by
  unfold novelEntry at h
  split at h
  · next hla =>
    cases hd : d.alternate with
    | none => rw [hd] at h; cases h
    | some x =>
      rw [hd] at h
      simp only [Option.map_some', Option.some.injEq] at h
      subst h
      exact ⟨rfl, hla⟩
  · cases h

theorem mem_positions_of_lookup_some {vs : VariantSet} {p : Nat} {d : VarData}
    (h : lookupVar vs p = some d) : p ∈ positionsOf vs := by
  by_contra hmem
  rw [← lookupVar_eq_none_iff] at hmem
  rw [hmem] at h
  cases h


theorem lookupVar_append (l1 l2 : VariantSet) (p : Nat) :
    lookupVar (l1 ++ l2) p =
      ((l1.find? (fun w => w.1 == p)).or (l2.find? (fun w => w.1 == p))).map Prod.snd := by
  unfold lookupVar
  rw [List.find?_append]

/-- C1 core: applying the computed diff to the anchor reproduces the
individual's variant map at every position. -/
theorem applyDiff_computeDiff_lookup (A V : VariantSet)
    (hA : (positionsOf A).Nodup) (p : Nat) :
    lookupVar (applyDiff A (computeDiff A V)) p = lookupVar V p := by
  have h1 := find?_filterMap_key (overrideEntry (computeDiff A V)) Prod.fst Prod.fst
    (fun x y hy => overrideEntry_key (computeDiff A V) x y hy) A p
    (by simpa [positionsOf] using hA)
  have h2 := find?_filterMap_key (novelEntry A) DiffEntry.position Prod.fst
    (fun x y hy => (novelEntry_some hy).1) (computeDiff A V) p
    (computeDiff_keys_nodup A V)
  have hfind : List.find? (fun d => d.position == p) (computeDiff A V)
      = if p ∈ unionPositions A V then diffAt A V p else none := findDiff_computeDiff A V p
  show lookupVar (A.filterMap (overrideEntry (computeDiff A V))
    ++ (computeDiff A V).filterMap (novelEntry A)) p = lookupVar V p
  rw [lookupVar_append]
  cases hfa : A.find? (fun w => w.1 == p) with
  | none =>
    have hlA : lookupVar A p = none := by simp [lookupVar, hfa]
    have hpart1 :
        (A.filterMap (overrideEntry (computeDiff A V))).find? (fun w => w.1 == p) = none := by
      rw [h1, hfa]
    rw [hpart1]
    cases hdv : lookupVar V p with
    | none =>
      have hda : diffAt A V p = none := by
        unfold diffAt
        rw [hdv, hlA, if_pos rfl]
      have hpart2 :
          ((computeDiff A V).filterMap (novelEntry A)).find? (fun w => w.1 == p) = none := by
        rw [h2, hfind]
        by_cases hp : p ∈ unionPositions A V
        · rw [if_pos hp, hda]
        · rw [if_neg hp]
      rw [hpart2]
      rfl
    | some x =>
      have hp : p ∈ unionPositions A V := by
        unfold unionPositions
        rw [List.mem_dedup, List.mem_append]
        exact Or.inr (mem_positions_of_lookup_some hdv)
      have hda : diffAt A V p
          = some { position := p, reference_allele := none, alternate := some x } := by
        unfold diffAt
        rw [hdv, hlA, if_neg (by simp)]
        rfl
      have hpart2 :
          ((computeDiff A V).filterMap (novelEntry A)).find? (fun w => w.1 == p)
            = some (p, x) := by
        rw [h2, hfind, if_pos hp, hda]
        show novelEntry A { position := p, reference_allele := none, alternate := some x }
          = some (p, x)
        unfold novelEntry
        simp [hlA]
      rw [hpart2]
      rfl
  | some w =>
    have hw1 : w.1 = p := find?_key_some_fst A p w hfa
    have hlA : lookupVar A p = some w.2 := by simp [lookupVar, hfa]
    have hp : p ∈ unionPositions A V := by
      unfold unionPositions
      rw [List.mem_dedup, List.mem_append]
      exact Or.inl (mem_positions_of_lookup_some hlA)
    have hpart1 :
        (A.filterMap (overrideEntry (computeDiff A V))).find? (fun w => w.1 == p)
          = overrideEntry (computeDiff A V) w := by
      rw [h1, hfa]
    have hov_fd : findDiff (computeDiff A V) w.1 = diffAt A V p := by
      rw [hw1]
      exact (findDiff_computeDiff A V p).trans (if_pos hp)
    by_cases hev : lookupVar V p = lookupVar A p
    · have hda : diffAt A V p = none := by
        unfold diffAt
        rw [if_pos hev]
      have hov : overrideEntry (computeDiff A V) w = some w := by
        unfold overrideEntry
        rw [hov_fd, hda]
      rw [hpart1, hov, hev, hlA]
      rfl
    · have hda : diffAt A V p
          = some { position := p, reference_allele := (lookupVar A p).map VarData.allele,
                   alternate := lookupVar V p } := by
        unfold diffAt
        rw [if_neg hev]
      cases hdv : lookupVar V p with
      | some x =>
        have hov : overrideEntry (computeDiff A V) w = some (w.1, x) := by
          unfold overrideEntry
          rw [hov_fd, hda]
          show (lookupVar V p).map (fun y => (w.1, y)) = some (w.1, x)
          rw [hdv]
          rfl
        rw [hpart1, hov]
        rfl
      | none =>
        have hov : overrideEntry (computeDiff A V) w = none := by
          unfold overrideEntry
          rw [hov_fd, hda]
          show (lookupVar V p).map (fun y => (w.1, y)) = none
          rw [hdv]
          rfl
        have hpart2 :
            ((computeDiff A V).filterMap (novelEntry A)).find? (fun u => u.1 == p) = none := by
          rw [h2, hfind, if_pos hp, hda]
          show novelEntry A
            { position := p, reference_allele := (lookupVar A p).map VarData.allele,
              alternate := lookupVar V p } = none
          unfold novelEntry
          rw [if_neg (by simp [hlA])]
        rw [hpart1, hov, hpart2]
        rfl

theorem applyDiff_keys_nodup (A V : VariantSet) (hA : (positionsOf A).Nodup) :
    (positionsOf (applyDiff A (computeDiff A V))).Nodup := by
  have hsub1 := map_filterMap_key_sublist (overrideEntry (computeDiff A V)) Prod.fst Prod.fst
    (fun x y hy => overrideEntry_key (computeDiff A V) x y hy) A
  have hsub2 := map_filterMap_key_sublist (novelEntry A) DiffEntry.position Prod.fst
    (fun x y hy => (novelEntry_some hy).1) (computeDiff A V)
  have hnd1 : ((A.filterMap (overrideEntry (computeDiff A V))).map Prod.fst).Nodup :=
    hsub1.nodup (by simpa [positionsOf] using hA)
  have hnd2 : (((computeDiff A V).filterMap (novelEntry A)).map Prod.fst).Nodup :=
    hsub2.nodup (computeDiff_keys_nodup A V)
  have hdisj : ∀ k ∈ (A.filterMap (overrideEntry (computeDiff A V))).map Prod.fst,
      k ∉ ((computeDiff A V).filterMap (novelEntry A)).map Prod.fst := by
    intro k hk1 hk2
    have hkA : k ∈ positionsOf A := hsub1.subset hk1
    obtain ⟨u, hu, huk⟩ := List.mem_map.mp hk2
    obtain ⟨d, _, hfd⟩ := List.mem_filterMap.mp hu
    obtain ⟨hpos, hnone⟩ := novelEntry_some hfd
    exact (lookupVar_eq_none_iff A d.position).mp hnone (hpos ▸ huk ▸ hkA)
  show ((A.filterMap (overrideEntry (computeDiff A V))
    ++ (computeDiff A V).filterMap (novelEntry A)).map Prod.fst).Nodup
  rw [List.map_append]
  exact hnd1.append hnd2 hdisj

/-! ## Claim C1: round-trip law -/

/-- C1: for every anchor variant set `A` and individual variant set `V` (finite
maps, so positions are distinct), `applyDiff(A, computeDiff(A, V))` reproduces
`V` exactly: the reconstruction agrees with `V` at every position and contains
precisely `V`'s records. -/
theorem c1_round_trip (A V : VariantSet)
    (hA : (positionsOf A).Nodup) (hV : (positionsOf V).Nodup) :
    (∀ p, lookupVar (applyDiff A (computeDiff A V)) p = lookupVar V p) ∧
    (∀ p d, ((p, d) ∈ applyDiff A (computeDiff A V)) ↔ (p, d) ∈ V) := by
  refine ⟨fun p => applyDiff_computeDiff_lookup A V hA p, fun p d => ?_⟩
  rw [← lookupVar_eq_some_iff _ (applyDiff_keys_nodup A V hA) p d,
    ← lookupVar_eq_some_iff _ hV p d,
    applyDiff_computeDiff_lookup A V hA p]

/-- A concrete anchor: two positions with their alleles. -/
def c1A : VariantSet := [(12345, ⟨"A", 1⟩), (23456, ⟨"G", 1⟩)]

/-- A concrete individual: overrides position 12345, lacks 23456, adds a novel
variant at 34567. -/
def c1V : VariantSet := [(12345, ⟨"T", 0⟩), (34567, ⟨"C", 1⟩)]

/-- C1 witness: the round-trip theorem applied to the concrete anchor and
individual above, evaluated at an overridden, a dropped and a novel
position. -/
theorem c1_round_trip_witness :
    (positionsOf c1A).Nodup ∧ (positionsOf c1V).Nodup ∧
    lookupVar (applyDiff c1A (computeDiff c1A c1V)) 23456 = lookupVar c1V 23456 ∧
    lookupVar (applyDiff c1A (computeDiff c1A c1V)) 12345 = lookupVar c1V 12345 ∧
    (((34567, (⟨"C", 1⟩ : VarData)) ∈ applyDiff c1A (computeDiff c1A c1V)) ↔
      ((34567, (⟨"C", 1⟩ : VarData)) ∈ c1V)) :=
  ⟨by decide, by decide,
    (c1_round_trip c1A c1V (by decide) (by decide)).1 23456,
    (c1_round_trip c1A c1V (by decide) (by decide)).1 12345,
    (c1_round_trip c1A c1V (by decide) (by decide)).2 34567 ⟨"C", 1⟩⟩

/-! ## Claim C7: at most one diff entry per position, replace not append -/

theorem slotPred_of_sameSlot {r d : DiffRow} (h : sameSlot r d = true) (a i : String) (p : Nat) :
    slotPred a i p r = slotPred a i p d := by
  simp only [sameSlot, Bool.and_eq_true, beq_iff_eq] at h
  obtain ⟨⟨h1, h2⟩, h3⟩ := h
  unfold slotPred
  rw [h1, h2, h3]

theorem writeDiff_preserves_unique (s : List DiffRow) (d : DiffRow)
    (h : ∀ a i p, (s.filter (fun r => slotPred a i p r)).length ≤ 1) (a i : String) (p : Nat) :
    ((writeDiff s d).filter (fun r => slotPred a i p r)).length ≤ 1 := by
  unfold writeDiff
  by_cases hocc : s.any (fun r => sameSlot r d) = true
  · rw [if_pos hocc]
    have hmap : ((s.map (fun r => if sameSlot r d then d else r)).filter
        (fun r => slotPred a i p r)).length
        = (s.filter (fun r => slotPred a i p r)).length := by
      rw [← List.countP_eq_length_filter, ← List.countP_eq_length_filter, List.countP_map]
      apply List.countP_congr
      intro r _
      have hb : slotPred a i p (if sameSlot r d then d else r) = slotPred a i p r := by
        by_cases hs : sameSlot r d = true
        · rw [if_pos hs, slotPred_of_sameSlot hs]
        · rw [if_neg hs]
      show slotPred a i p (if sameSlot r d then d else r) = true ↔ slotPred a i p r = true
      rw [hb]
    rw [hmap]
    exact h a i p
  · rw [if_neg hocc, List.filter_append, List.length_append]
    by_cases hd : slotPred a i p d = true
    · have hnone : s.filter (fun r => slotPred a i p r) = [] := by
        rw [List.filter_eq_nil_iff]
        intro r hr hrp
        have hslot : sameSlot r d = true := by
          simp only [slotPred, Bool.and_eq_true, beq_iff_eq] at hrp hd
          simp only [sameSlot, Bool.and_eq_true, beq_iff_eq]
          exact ⟨⟨hrp.1.1.trans hd.1.1.symm, hrp.1.2.trans hd.1.2.symm⟩,
            hrp.2.trans hd.2.symm⟩
        have : s.any (fun r => sameSlot r d) = true :=
          List.any_eq_true.mpr ⟨r, hr, hslot⟩
        exact hocc this
      rw [hnone]
      simp [List.filter, hd]
    · have : ([d].filter (fun r => slotPred a i p r)).length = 0 := by
        simp [List.filter, hd]
      rw [this]
      simpa using h a i p

/-- C7: in every diff-store state reachable by writes, each
`(anchor_id, individual_id, position)` slot holds at most one Diff Entry, and
a write into an occupied slot replaces the entry (store length unchanged, the
new row present) rather than appending a second one. -/
theorem c7_unique_position (s : List DiffRow) (h : ReachableDiffStore s) :
    (∀ a i p, (s.filter (fun r => slotPred a i p r)).length ≤ 1) ∧
    (∀ d, s.any (fun r => sameSlot r d) = true →
      (writeDiff s d).length = s.length ∧ d ∈ writeDiff s d) := by
  constructor
  · induction h with
    | empty => intro a i p; simp
    | write s' d' _ ih => exact writeDiff_preserves_unique s' d' ih
  · intro d hocc
    unfold writeDiff
    rw [if_pos hocc]
    refine ⟨by simp, ?_⟩
    obtain ⟨r, hr, hrs⟩ := List.any_eq_true.mp hocc
    exact List.mem_map.mpr ⟨r, hr, by rw [if_pos hrs]⟩

/-- A concrete first write into the diff store. -/
def c7row0 : DiffRow :=
  ⟨"diff-0", "anchor-001", "ind-001", 12345, "A", "T", 1⟩

/-- A later write into the same `(anchor, individual, position)` slot. -/
def c7row1 : DiffRow :=
  ⟨"diff-1", "anchor-001", "ind-001", 12345, "A", "G", 1⟩

/-- C7 witness: after one write the slot holds at most one entry, and a second
write into the occupied slot replaces rather than appends. -/
theorem c7_unique_position_witness :
    ((writeDiff [] c7row0).filter (fun r => slotPred "anchor-001" "ind-001" 12345 r)).length ≤ 1
    ∧ (writeDiff [] c7row0).any (fun r => sameSlot r c7row1) = true
    ∧ (writeDiff (writeDiff [] c7row0) c7row1).length = (writeDiff [] c7row0).length
    ∧ c7row1 ∈ writeDiff (writeDiff [] c7row0) c7row1 := by
  have h := c7_unique_position (writeDiff [] c7row0)
    (ReachableDiffStore.write [] c7row0 ReachableDiffStore.empty)
  exact ⟨h.1 "anchor-001" "ind-001" 12345, by decide,
    (h.2 c7row1 (by decide)).1, (h.2 c7row1 (by decide)).2⟩

/-! ## Claim C2: support classification thresholds -/

theorem Accumulator.supportClass_spec (p : ℝ) :
    (Accumulator.supportClass p = SupportClass.weak ↔ p < 1/2)
    ∧ (Accumulator.supportClass p = SupportClass.moderate ↔ 1/2 ≤ p ∧ p < 9/10)
    ∧ (Accumulator.supportClass p = SupportClass.strong ↔ 9/10 ≤ p) := by
  unfold Accumulator.supportClass
  split_ifs with h1 h2
  · exact ⟨iff_of_true rfl h1,
      iff_of_false (by decide) (fun hx => absurd h1 (not_lt.2 hx.1)),
      iff_of_false (by decide)
        (fun hx => absurd h1 (not_lt.2 (le_trans (by norm_num) hx)))⟩
  · exact ⟨iff_of_false (by decide) h1,
      iff_of_true rfl ⟨not_lt.1 h1, h2⟩,
      iff_of_false (by decide) (not_le.2 h2)⟩
  · exact ⟨iff_of_false (by decide) h1,
      iff_of_false (by decide) (fun hx => h2 hx.2),
      iff_of_true rfl (not_lt.1 h2)⟩

/-- C2: every posterior snapshot classifies its posterior by the exact
thresholds — below 0.5 Weak, at least 0.5 and below 0.9 Moderate, at least 0.9
Strong; in particular exactly 0.5 is Moderate and exactly 0.9 is Strong. -/
theorem c2_support_classification (log : List EvidenceRecord) (tid ver : String) (prior : ℝ) :
    ((Accumulator.getPosterior log tid ver prior).support_class = SupportClass.weak
      ↔ (Accumulator.getPosterior log tid ver prior).posterior < 1/2)
    ∧ ((Accumulator.getPosterior log tid ver prior).support_class = SupportClass.moderate
      ↔ 1/2 ≤ (Accumulator.getPosterior log tid ver prior).posterior
        ∧ (Accumulator.getPosterior log tid ver prior).posterior < 9/10)
    ∧ ((Accumulator.getPosterior log tid ver prior).support_class = SupportClass.strong
      ↔ 9/10 ≤ (Accumulator.getPosterior log tid ver prior).posterior)
    ∧ Accumulator.supportClass (1/2) = SupportClass.moderate
    ∧ Accumulator.supportClass (9/10) = SupportClass.strong := by
  have hproj : (Accumulator.getPosterior log tid ver prior).support_class
      = Accumulator.supportClass ((Accumulator.getPosterior log tid ver prior).posterior) := rfl
  have hs := Accumulator.supportClass_spec ((Accumulator.getPosterior log tid ver prior).posterior)
  refine ⟨hproj ▸ hs.1, hproj ▸ hs.2.1, hproj ▸ hs.2.2, ?_, ?_⟩
  · unfold Accumulator.supportClass
    rw [if_neg (by norm_num), if_pos (by norm_num)]
  · unfold Accumulator.supportClass
    rw [if_neg (by norm_num), if_neg (by norm_num)]

/-! ## Claim C3: zero evidence leaves the prior unchanged -/

/-- C3: for a theory version with no Evidence Records, the snapshot has
accumulated Bayes factor 1, posterior equal to the prior, and a support class
derived from the prior alone. -/
theorem c3_zero_evidence (log : List EvidenceRecord) (tid ver : String) (prior : ℝ)
    (h : Accumulator.recordsFor log tid ver = []) :
    (Accumulator.getPosterior log tid ver prior).accumulated_bayes_factor = 1
    ∧ (Accumulator.getPosterior log tid ver prior).posterior = prior
    ∧ (Accumulator.getPosterior log tid ver prior).support_class
      = Accumulator.supportClass prior := by
  have hacc : (Accumulator.getPosterior log tid ver prior).accumulated_bayes_factor = 1 := by
    show Accumulator.accumulatedBF (Accumulator.recordsFor log tid ver) = 1
    rw [h]
    simp [Accumulator.accumulatedBF]
  have hpost : (Accumulator.getPosterior log tid ver prior).posterior = prior := by
    show Accumulator.posteriorVal prior
      (Accumulator.accumulatedBF (Accumulator.recordsFor log tid ver)) = prior
    rw [h]
    have h1 : Accumulator.accumulatedBF [] = 1 := by simp [Accumulator.accumulatedBF]
    rw [h1]
    unfold Accumulator.posteriorVal
    rw [mul_one]
    have h2 : prior + (1 - prior) = 1 := by ring
    rw [h2, div_one]
  refine ⟨hacc, hpost, ?_⟩
  show Accumulator.supportClass ((Accumulator.getPosterior log tid ver prior).posterior)
    = Accumulator.supportClass prior
  rw [hpost]

/-- C3 witness: the empty log at prior one half. -/
theorem c3_zero_evidence_witness :
    Accumulator.recordsFor [] "t1" "1.0.0" = []
    ∧ ((Accumulator.getPosterior [] "t1" "1.0.0" (1/2)).accumulated_bayes_factor = 1
      ∧ (Accumulator.getPosterior [] "t1" "1.0.0" (1/2)).posterior = 1/2
      ∧ (Accumulator.getPosterior [] "t1" "1.0.0" (1/2)).support_class
        = Accumulator.supportClass (1/2)) :=
  ⟨rfl, c3_zero_evidence [] "t1" "1.0.0" (1/2) rfl⟩

/-! ## Claim C6: addEvidence validation -/

/-- C6: a call to addEvidence succeeds and appends exactly when both the Bayes
factor and the weight are strictly positive, and fails with InvalidEvidence
(appending nothing) otherwise. -/
theorem c6_add_evidence_validation (log : List EvidenceRecord) (e : EvidenceRecord) :
    (Accumulator.addEvidence log e = Except.ok (log ++ [e])
      ↔ 0 < e.bayes_factor ∧ 0 < e.weight)
    ∧ (Accumulator.addEvidence log e = Except.error EvidenceError.invalidEvidence
      ↔ ¬(0 < e.bayes_factor ∧ 0 < e.weight)) := by
  unfold Accumulator.addEvidence
  by_cases h : 0 < e.bayes_factor ∧ 0 < e.weight
  · rw [if_pos h]
    exact ⟨iff_of_true rfl h, iff_of_false (by simp) (by simpa using h)⟩
  · rw [if_neg h]
    exact ⟨iff_of_false (by simp) h, iff_of_true rfl h⟩

/-- A rejected evidence submission: non-positive Bayes factor. -/
def c6bad : EvidenceRecord :=
  ⟨"t1", "1.0.0", "family-001", -1, 1, EvidenceType.manual_entry, "manual", 0⟩

/-- An accepted evidence submission. -/
def c6good : EvidenceRecord :=
  ⟨"t1", "1.0.0", "family-001", 2, 1, EvidenceType.execution, "run", 0⟩

/-- C6 witness: the validation theorem applied to a rejected and an accepted
record. -/
theorem c6_add_evidence_validation_witness :
    Accumulator.addEvidence [] c6bad = Except.error EvidenceError.invalidEvidence
    ∧ Accumulator.addEvidence [] c6good = Except.ok [c6good] :=
  ⟨(c6_add_evidence_validation [] c6bad).2.mpr (by decide),
   (c6_add_evidence_validation [] c6good).1.mpr (by decide)⟩

/-! ## Claim C5: evidence accumulation is order-insensitive -/

theorem Accumulator.accumulatedBF_perm {R1 R2 : List EvidenceRecord} (h : R1.Perm R2) :
    Accumulator.accumulatedBF R1 = Accumulator.accumulatedBF R2 := by
  unfold Accumulator.accumulatedBF
  have hfun : (fun e : EvidenceRecord =>
      ((e.bayes_factor : ℝ) ^ ((Accumulator.shrink
        (Accumulator.familyCount R1 e.family_id) : ℚ) : ℝ)))
      = fun e : EvidenceRecord =>
      ((e.bayes_factor : ℝ) ^ ((Accumulator.shrink
        (Accumulator.familyCount R2 e.family_id) : ℚ) : ℝ)) := by
    funext e
    unfold Accumulator.familyCount
    rw [h.countP_eq]
  rw [hfun]
  exact (h.map _).prod_eq

theorem Accumulator.familiesAnalyzed_perm {R1 R2 : List EvidenceRecord} (h : R1.Perm R2) :
    Accumulator.familiesAnalyzed R1 = Accumulator.familiesAnalyzed R2 := by
  unfold Accumulator.familiesAnalyzed
  exact ((h.map _).dedup).length_eq

theorem Accumulator.snapshotOf_perm {R1 R2 : List EvidenceRecord} (h : R1.Perm R2) (prior : ℝ) :
    Accumulator.snapshotOf R1 prior = Accumulator.snapshotOf R2 prior := by
  unfold Accumulator.snapshotOf
  rw [Accumulator.accumulatedBF_perm h, h.length_eq, Accumulator.familiesAnalyzed_perm h]

/-- C5: appending two Evidence Records in either order yields the same
posterior snapshot — accumulation is a product over an unordered set. -/
theorem c5_evidence_commutativity (log : List EvidenceRecord) (e1 e2 : EvidenceRecord)
    (tid ver : String) (prior : ℝ) :
    Accumulator.getPosterior (log ++ [e1, e2]) tid ver prior
      = Accumulator.getPosterior (log ++ [e2, e1]) tid ver prior := by
  unfold Accumulator.getPosterior
  apply Accumulator.snapshotOf_perm
  unfold Accumulator.recordsFor
  exact ((List.Perm.swap e2 e1 []).append_left log).filter _

/-! ## Claim C10: the portal's default prior -/

/-- C10: the portal's posterior read with an omitted prior issues the same
request as an explicit prior of 0.1, the declared default. -/
theorem c10_default_prior (theoryId theoryVersion : String) :
    Portal.getPosterior theoryId theoryVersion none
      = Portal.getPosterior theoryId theoryVersion (some (1/10))
    ∧ (Portal.getPosterior theoryId theoryVersion none).prior = 1/10 :=
  ⟨rfl, rfl⟩

/-! ## Claim C4: posterior monotonicity under one added record -/

theorem Accumulator.posteriorVal_le_posteriorVal (prior b1 b2 : ℝ)
    (hp0 : 0 ≤ prior) (hp1 : prior ≤ 1) (hb1 : 0 ≤ b1) (hb : b1 ≤ b2) :
    Accumulator.posteriorVal prior b1 ≤ Accumulator.posteriorVal prior b2 := by
  unfold Accumulator.posteriorVal
  rcases eq_or_lt_of_le (show (0:ℝ) ≤ prior * b1 + (1 - prior) by nlinarith) with h0 | h0
  · rw [← h0, div_zero]
    exact div_nonneg (by nlinarith) (by nlinarith)
  · have h2 : 0 < prior * b2 + (1 - prior) := by nlinarith
    rw [div_le_div_iff₀ h0 h2]
    nlinarith [mul_nonneg (mul_nonneg hp0 (sub_nonneg.2 hp1)) (sub_nonneg.2 hb)]

theorem Accumulator.posteriorVal_lt_posteriorVal (prior b1 b2 : ℝ)
    (hp0 : 0 < prior) (hp1 : prior < 1) (hb1 : 0 ≤ b1) (hb : b1 < b2) :
    Accumulator.posteriorVal prior b1 < Accumulator.posteriorVal prior b2 := by
  unfold Accumulator.posteriorVal
  have h1 : 0 < prior * b1 + (1 - prior) := by nlinarith
  have h2 : 0 < prior * b2 + (1 - prior) := by nlinarith
  rw [div_lt_div_iff₀ h1 h2]
  nlinarith [mul_pos (mul_pos hp0 (sub_pos.2 hp1)) (sub_pos.2 hb)]

theorem Accumulator.accumulatedBF_nonneg (R : List EvidenceRecord)
    (h : ∀ r ∈ R, (0:ℚ) ≤ r.bayes_factor) : 0 ≤ Accumulator.accumulatedBF R := by
  unfold Accumulator.accumulatedBF
  apply List.prod_nonneg
  intro x hx
  obtain ⟨r, hr, rfl⟩ := List.mem_map.mp hx
  exact Real.rpow_nonneg (by exact_mod_cast h r hr) _

theorem Accumulator.accumulatedBF_append_fresh (R : List EvidenceRecord) (e : EvidenceRecord)
    (hnew : Accumulator.familyCount R e.family_id = 0) :
    Accumulator.accumulatedBF (R ++ [e])
      = Accumulator.accumulatedBF R
        * (e.bayes_factor : ℝ) ^ ((Accumulator.shrink 1 : ℚ) : ℝ) := by
  unfold Accumulator.accumulatedBF
  rw [List.map_append, List.prod_append]
  have hc1 : Accumulator.familyCount (R ++ [e]) e.family_id = 1 := by
    unfold Accumulator.familyCount
    rw [List.countP_append]
    unfold Accumulator.familyCount at hnew
    rw [hnew]
    simp
  congr 1
  · have hmap : List.map (fun r : EvidenceRecord =>
        ((r.bayes_factor : ℝ) ^ ((Accumulator.shrink
          (Accumulator.familyCount (R ++ [e]) r.family_id) : ℚ) : ℝ))) R
        = List.map (fun r : EvidenceRecord =>
        ((r.bayes_factor : ℝ) ^ ((Accumulator.shrink
          (Accumulator.familyCount R r.family_id) : ℚ) : ℝ))) R := by
      apply List.map_congr_left
      intro r hr
      have hrf : r.family_id ≠ e.family_id := by
        intro hf
        have hpos : 0 < Accumulator.familyCount R e.family_id := by
          unfold Accumulator.familyCount
          rw [List.countP_pos_iff]
          exact ⟨r, hr, by simp [hf]⟩
        omega
      have hc : Accumulator.familyCount (R ++ [e]) r.family_id
          = Accumulator.familyCount R r.family_id := by
        unfold Accumulator.familyCount
        rw [List.countP_append]
        have hz : List.countP (fun x => x.family_id == r.family_id) [e] = 0 := by
          rw [List.countP_eq_zero]
          intro a ha
          have : a = e := by simpa using ha
          subst this
          simpa using fun hx => hrf (hx.symm)
        rw [hz, add_zero]
      rw [hc]
    rw [hmap]
  · simp only [List.map_cons, List.map_nil, List.prod_cons, List.prod_nil, mul_one]
    rw [hc1]

/-- Two evidence records of the same family for theory `t1@1.0.0`: a strong
disconfirmation followed by a confirmation with Bayes factor above one. -/
def c4e1 : EvidenceRecord :=
  ⟨"t1", "1.0.0", "family-001", 1/100, 1, EvidenceType.execution, "run", 0⟩

/-- The later record of the pair: `bayes_factor = 2 > 1`. -/
def c4e2 : EvidenceRecord :=
  ⟨"t1", "1.0.0", "family-001", 2, 1, EvidenceType.execution, "run", 1⟩

/-- C4 counterexample: adding the record `c4e2` with Bayes factor 2 > 1 to the
log `[c4e1]` strictly decreases the posterior — growing the family re-weights
its existing record upward, because the shrink exponent rises with the family's
item count. -/
theorem c4_counterexample :
    1 < c4e2.bayes_factor
    ∧ (Accumulator.getPosterior [c4e1, c4e2] "t1" "1.0.0" (1/2)).posterior
      < (Accumulator.getPosterior [c4e1] "t1" "1.0.0" (1/2)).posterior := by
  refine ⟨by decide, ?_⟩
  have h1 : Accumulator.recordsFor [c4e1] "t1" "1.0.0" = [c4e1] := rfl
  have h2 : Accumulator.recordsFor [c4e1, c4e2] "t1" "1.0.0" = [c4e1, c4e2] := rfl
  have hcnt1 : Accumulator.familyCount [c4e1] c4e1.family_id = 1 := rfl
  have hcnt2a : Accumulator.familyCount [c4e1, c4e2] c4e1.family_id = 2 := rfl
  have hcnt2b : Accumulator.familyCount [c4e1, c4e2] c4e2.family_id = 2 := rfl
  have hs1 : ((Accumulator.shrink 1 : ℚ) : ℝ) = 1/2 := by
    unfold Accumulator.shrink
    push_cast
    norm_num
  have hs2 : ((Accumulator.shrink 2 : ℚ) : ℝ) = 2/3 := by
    unfold Accumulator.shrink
    push_cast
    norm_num
  have hacc1 : Accumulator.accumulatedBF [c4e1] = ((1:ℝ)/100) ^ ((1:ℝ)/2) := by
    unfold Accumulator.accumulatedBF
    simp only [List.map_cons, List.map_nil, List.prod_cons, List.prod_nil, mul_one]
    rw [hcnt1, hs1]
    norm_num [c4e1]
  have hacc2 : Accumulator.accumulatedBF [c4e1, c4e2] = ((1:ℝ)/50) ^ ((2:ℝ)/3) := by
    unfold Accumulator.accumulatedBF
    simp only [List.map_cons, List.map_nil, List.prod_cons, List.prod_nil, mul_one]
    rw [hcnt2a, hcnt2b, hs2]
    rw [show (c4e1.bayes_factor : ℝ) = 1/100 by norm_num [c4e1],
      show (c4e2.bayes_factor : ℝ) = 2 by norm_num [c4e2],
      ← Real.mul_rpow (by norm_num) (by norm_num)]
    norm_num
  have hkey : ((1:ℝ)/50) ^ ((2:ℝ)/3) < ((1:ℝ)/100) ^ ((1:ℝ)/2) := by
    have hb : (0:ℝ) ≤ ((1:ℝ)/100) ^ ((1:ℝ)/2) := Real.rpow_nonneg (by norm_num) _
    apply lt_of_pow_lt_pow_left₀ 6 hb
    have e1 : (((1:ℝ)/50) ^ ((2:ℝ)/3)) ^ (6:ℕ) = ((1:ℝ)/50) ^ (4:ℕ) := by
      rw [← Real.rpow_natCast (((1:ℝ)/50) ^ ((2:ℝ)/3)) 6,
        ← Real.rpow_mul (by norm_num : (0:ℝ) ≤ 1/50),
        show (2:ℝ)/3 * ((6:ℕ):ℝ) = ((4:ℕ):ℝ) by push_cast; norm_num,
        Real.rpow_natCast]
    have e2 : (((1:ℝ)/100) ^ ((1:ℝ)/2)) ^ (6:ℕ) = ((1:ℝ)/100) ^ (3:ℕ) := by
      rw [← Real.rpow_natCast (((1:ℝ)/100) ^ ((1:ℝ)/2)) 6,
        ← Real.rpow_mul (by norm_num : (0:ℝ) ≤ 1/100),
        show (1:ℝ)/2 * ((6:ℕ):ℝ) = ((3:ℕ):ℝ) by push_cast; norm_num,
        Real.rpow_natCast]
    rw [e1, e2]
    norm_num
  show Accumulator.posteriorVal (1/2)
      (Accumulator.accumulatedBF (Accumulator.recordsFor [c4e1, c4e2] "t1" "1.0.0"))
    < Accumulator.posteriorVal (1/2)
      (Accumulator.accumulatedBF (Accumulator.recordsFor [c4e1] "t1" "1.0.0"))
  rw [h1, h2, hacc1, hacc2]
  exact Accumulator.posteriorVal_lt_posteriorVal (1/2) _ _ (by norm_num) (by norm_num)
    (Real.rpow_nonneg (by norm_num) _) hkey

/-- C4 as amended: adding one Evidence Record for a family with no existing
records of that theory version never decreases the posterior when its Bayes
factor is at least 1, and never increases it when its Bayes factor is at most
1 (prior in the unit interval, stored Bayes factors nonnegative). -/
theorem c4_posterior_monotonicity_fresh_family (log : List EvidenceRecord)
    (e : EvidenceRecord) (tid ver : String) (prior : ℝ)
    (hp0 : 0 ≤ prior) (hp1 : prior ≤ 1)
    (hpos : ∀ r ∈ Accumulator.recordsFor log tid ver, (0:ℚ) ≤ r.bayes_factor)
    (hmatch : e.theory_id = tid) (hmatch2 : e.theory_version = ver)
    (hbfpos : 0 ≤ e.bayes_factor)
    (hnew : Accumulator.familyCount (Accumulator.recordsFor log tid ver) e.family_id = 0) :
    (1 ≤ e.bayes_factor →
      (Accumulator.getPosterior log tid ver prior).posterior
        ≤ (Accumulator.getPosterior (log ++ [e]) tid ver prior).posterior)
    ∧ (e.bayes_factor ≤ 1 →
      (Accumulator.getPosterior (log ++ [e]) tid ver prior).posterior
        ≤ (Accumulator.getPosterior log tid ver prior).posterior) := by
  have hrf : Accumulator.recordsFor (log ++ [e]) tid ver
      = Accumulator.recordsFor log tid ver ++ [e] := by
    unfold Accumulator.recordsFor
    rw [List.filter_append]
    congr 1
    simp [hmatch, hmatch2]
  have hacc := Accumulator.accumulatedBF_append_fresh
    (Accumulator.recordsFor log tid ver) e hnew
  have hshr : ((Accumulator.shrink 1 : ℚ) : ℝ) = 1/2 := by
    unfold Accumulator.shrink
    push_cast
    norm_num
  have haccnn : 0 ≤ Accumulator.accumulatedBF (Accumulator.recordsFor log tid ver) :=
    Accumulator.accumulatedBF_nonneg _ hpos
  have hpostL : (Accumulator.getPosterior (log ++ [e]) tid ver prior).posterior
      = Accumulator.posteriorVal prior
        (Accumulator.accumulatedBF (Accumulator.recordsFor log tid ver ++ [e])) := by
    show Accumulator.posteriorVal prior
      (Accumulator.accumulatedBF (Accumulator.recordsFor (log ++ [e]) tid ver)) = _
    rw [hrf]
  have hpostR : (Accumulator.getPosterior log tid ver prior).posterior
      = Accumulator.posteriorVal prior
        (Accumulator.accumulatedBF (Accumulator.recordsFor log tid ver)) := rfl
  constructor
  · intro hbf
    rw [hpostL, hpostR, hacc, hshr]
    apply Accumulator.posteriorVal_le_posteriorVal prior _ _ hp0 hp1 haccnn
    have hge : (1:ℝ) ≤ (e.bayes_factor : ℝ) ^ ((1:ℝ)/2) := by
      calc (1:ℝ) = (1:ℝ) ^ ((1:ℝ)/2) := (Real.one_rpow _).symm
      _ ≤ (e.bayes_factor : ℝ) ^ ((1:ℝ)/2) :=
        Real.rpow_le_rpow zero_le_one (by exact_mod_cast hbf) (by norm_num)
    exact le_mul_of_one_le_right haccnn hge
  · intro hbf
    rw [hpostL, hpostR, hacc, hshr]
    apply Accumulator.posteriorVal_le_posteriorVal prior _ _ hp0 hp1
      (mul_nonneg haccnn (Real.rpow_nonneg (by exact_mod_cast hbfpos) _))
    have hle : (e.bayes_factor : ℝ) ^ ((1:ℝ)/2) ≤ 1 := by
      calc (e.bayes_factor : ℝ) ^ ((1:ℝ)/2)
          ≤ (1:ℝ) ^ ((1:ℝ)/2) :=
        Real.rpow_le_rpow (by exact_mod_cast hbfpos) (by exact_mod_cast hbf) (by norm_num)
      _ = 1 := Real.one_rpow _
    exact mul_le_of_le_one_right haccnn hle

/-- A confirming record from a family not yet present in the log. -/
def c4w : EvidenceRecord :=
  ⟨"t1", "1.0.0", "family-002", 2, 1, EvidenceType.execution, "run", 2⟩

/-- C4 witness: the amended monotonicity theorem applied to the empty log and
a fresh-family record with Bayes factor 2. -/
theorem c4_posterior_monotonicity_fresh_family_witness :
    Accumulator.familyCount (Accumulator.recordsFor [] "t1" "1.0.0") c4w.family_id = 0
    ∧ ((1 ≤ c4w.bayes_factor →
        (Accumulator.getPosterior [] "t1" "1.0.0" (1/2)).posterior
          ≤ (Accumulator.getPosterior ([] ++ [c4w]) "t1" "1.0.0" (1/2)).posterior)
      ∧ (c4w.bayes_factor ≤ 1 →
        (Accumulator.getPosterior ([] ++ [c4w]) "t1" "1.0.0" (1/2)).posterior
          ≤ (Accumulator.getPosterior [] "t1" "1.0.0" (1/2)).posterior)) :=
  ⟨rfl, c4_posterior_monotonicity_fresh_family [] c4w "t1" "1.0.0" (1/2)
    (by norm_num) (by norm_num) (by intro r hr; simp [Accumulator.recordsFor] at hr)
    rfl rfl (by decide) rfl⟩

/-! ## Claim C8: forking and lineage queries -/

theorem ancestryAux_append_fresh (reg : List Theory) (t : Theory)
    (hfp : ∀ th ∈ reg, th.parent_theory_id ≠ some t.theory_id) :
    ∀ (fuel : Nat) (id : String), id ≠ t.theory_id →
      ancestryAux (reg ++ [t]) fuel id = ancestryAux reg fuel id := by
  intro fuel
  induction fuel with
  | zero => intro id _; rfl
  | succ n ih =>
    intro id hid
    have hlook : lookupTheory (reg ++ [t]) id = lookupTheory reg id := by
      unfold lookupTheory
      rw [List.find?_append]
      cases hf : reg.find? (fun th => th.theory_id == id) with
      | some u => rfl
      | none =>
        show ([t].find? (fun th => th.theory_id == id)) = none
        have hb : (t.theory_id == id) = false := by simpa using Ne.symm hid
        simp [List.find?, hb]
    have lhs_eq : ancestryAux (reg ++ [t]) (n + 1) id
        = match lookupTheory (reg ++ [t]) id with
          | none => []
          | some th =>
            match th.parent_theory_id with
            | none => []
            | some pid => pid :: ancestryAux (reg ++ [t]) n pid := rfl
    have rhs_eq : ancestryAux reg (n + 1) id
        = match lookupTheory reg id with
          | none => []
          | some th =>
            match th.parent_theory_id with
            | none => []
            | some pid => pid :: ancestryAux reg n pid := rfl
    rw [lhs_eq, rhs_eq, hlook]
    cases hlk : lookupTheory reg id with
    | none => rfl
    | some th =>
      show (match th.parent_theory_id with
            | none => []
            | some pid => pid :: ancestryAux (reg ++ [t]) n pid)
        = match th.parent_theory_id with
          | none => []
          | some pid => pid :: ancestryAux reg n pid
      cases hp : th.parent_theory_id with
      | none => rfl
      | some pid =>
        show pid :: ancestryAux (reg ++ [t]) n pid = pid :: ancestryAux reg n pid
        have hth : th ∈ reg := by
          unfold lookupTheory at hlk
          exact List.mem_of_find?_eq_some hlk
        have hpid : pid ≠ t.theory_id := fun hx => hfp th hth (by rw [hp, hx])
        rw [ih pid hpid]

theorem getAncestry_append (reg : List Theory) (ev : List EvidenceRecord)
    (nt : Theory) (t1 : String)
    (hpar : nt.parent_theory_id = some t1)
    (hfr : ∀ th ∈ reg, th.theory_id ≠ nt.theory_id)
    (hfp : ∀ th ∈ reg, th.parent_theory_id ≠ some nt.theory_id)
    (hne : t1 ≠ nt.theory_id) :
    getAncestry ⟨reg ++ [nt], ev⟩ nt.theory_id = t1 :: getAncestry ⟨reg, ev⟩ t1 := by
  show ancestryAux (reg ++ [nt]) (reg ++ [nt]).length nt.theory_id
    = t1 :: ancestryAux reg reg.length t1
  rw [List.length_append, List.length_singleton]
  have hlk : lookupTheory (reg ++ [nt]) nt.theory_id = some nt := by
    unfold lookupTheory
    rw [List.find?_append]
    have hnone : reg.find? (fun th => th.theory_id == nt.theory_id) = none := by
      rw [List.find?_eq_none]
      intro th hth
      simpa using hfr th hth
    rw [hnone]
    simp [List.find?]
  have lhs_eq : ancestryAux (reg ++ [nt]) (reg.length + 1) nt.theory_id
      = match lookupTheory (reg ++ [nt]) nt.theory_id with
        | none => []
        | some th =>
          match th.parent_theory_id with
          | none => []
          | some pid => pid :: ancestryAux (reg ++ [nt]) reg.length pid := rfl
  rw [lhs_eq, hlk]
  show (match nt.parent_theory_id with
        | none => []
        | some pid => pid :: ancestryAux (reg ++ [nt]) reg.length pid)
    = t1 :: ancestryAux reg reg.length t1
  rw [hpar]
  show t1 :: ancestryAux (reg ++ [nt]) reg.length t1 = t1 :: ancestryAux reg reg.length t1
  rw [ancestryAux_append_fresh reg nt hfp reg.length t1 hne]

theorem getChildren_append (reg : List Theory) (ev : List EvidenceRecord)
    (nt : Theory) (t1 : String) (hpar : nt.parent_theory_id = some t1) :
    getChildren ⟨reg ++ [nt], ev⟩ t1 = getChildren ⟨reg, ev⟩ t1 ++ [nt.theory_id] := by
  show ((reg ++ [nt]).filter (fun t => t.parent_theory_id == some t1)).map Theory.theory_id
    = (reg.filter (fun t => t.parent_theory_id == some t1)).map Theory.theory_id
      ++ [nt.theory_id]
  rw [List.filter_append, List.map_append]
  congr 1
  simp [List.filter, hpar]

/-- C8 as amended: forking `t1@t1v` into a fresh `t2` makes `getAncestry(t2)`
equal to `t1` followed by `t1`'s own ancestry (so `[t1]` exactly when `t1` has
no parent), appends `t2` to `getChildren(t1)`, and leaves `t2` with zero
Evidence Records. -/
theorem c8_fork_lineage (s : LineageState) (p : Theory) (t1 t1v t2 : String)
    (s' : LineageState)
    (hp : lookupTheoryVersion s.registry t1 t1v = some p)
    (hfr : ∀ th ∈ s.registry, th.theory_id ≠ t2)
    (hfp : ∀ th ∈ s.registry, th.parent_theory_id ≠ some t2)
    (hfe : ∀ e ∈ s.evidence, e.theory_id ≠ t2)
    (hs' : fork s t1 t1v t2 = Except.ok s') :
    getAncestry s' t2 = t1 :: getAncestry s t1
    ∧ getChildren s' t1 = getChildren s t1 ++ [t2]
    ∧ evidenceFor s' t2 "1.0.0" = [] := by
  have hpt1 : p.theory_id = t1 := by
    have := List.find?_some hp
    simp only [Bool.and_eq_true, beq_iff_eq] at this
    exact this.1
  have hpmem : p ∈ s.registry := List.mem_of_find?_eq_some hp
  have hne : t1 ≠ t2 := fun hx => hfr p hpmem (by rw [hpt1, hx])
  have hforked : fork s t1 t1v t2 = Except.ok
      { registry := s.registry ++
          [{ theory_id := t2, version := "1.0.0", parent_theory_id := some t1,
             scope := p.scope, criteria := p.criteria, prior := p.prior }],
        evidence := s.evidence } := by
    unfold fork
    rw [hp]
  rw [hforked] at hs'
  obtain rfl : _ = s' := Except.ok.inj hs'
  refine ⟨?_, ?_, ?_⟩
  · exact getAncestry_append s.registry s.evidence
      { theory_id := t2, version := "1.0.0", parent_theory_id := some t1,
        scope := p.scope, criteria := p.criteria, prior := p.prior } t1
      rfl hfr hfp hne
  · exact getChildren_append s.registry s.evidence
      { theory_id := t2, version := "1.0.0", parent_theory_id := some t1,
        scope := p.scope, criteria := p.criteria, prior := p.prior } t1 rfl
  · show s.evidence.filter (fun e => e.theory_id == t2 && e.theory_version == "1.0.0") = []
    rw [List.filter_eq_nil_iff]
    intro e he hpred
    simp only [Bool.and_eq_true, beq_iff_eq] at hpred
    exact hfe e he hpred.1

/-- The root theory of the concrete lineage. -/
def c8t0 : Theory := ⟨"t0", "1.0.0", none, "autism", ["gene-A"], 0⟩

/-- A fork of `t0`, itself carrying evidence. -/
def c8t1 : Theory := ⟨"t1", "1.0.0", some "t0", "autism", ["gene-A"], 0⟩

/-- An earlier fork of `t1`, present before `t2` is created. -/
def c8t3 : Theory := ⟨"t3", "1.0.0", some "t1", "autism", ["gene-A"], 0⟩

/-- Evidence recorded against `t1@1.0.0`. -/
def c8ev : EvidenceRecord :=
  ⟨"t1", "1.0.0", "family-001", 2, 1, EvidenceType.execution, "run", 0⟩

/-- A lineage state in which `t1` is itself a fork and already has a child. -/
def c8state : LineageState := ⟨[c8t0, c8t1, c8t3], [c8ev]⟩

/-- The state produced by forking `t1@1.0.0` into `t2`. -/
def c8forked : LineageState :=
  ⟨[c8t0, c8t1, c8t3, ⟨"t2", "1.0.0", some "t1", "autism", ["gene-A"], 0⟩], [c8ev]⟩

/-- C8 counterexample: `t1` has recorded evidence, forking it into `t2`
succeeds, yet `getAncestry(t2)` is not `[t1]` (it is `[t1, t0]`) and
`getChildren(t1)` is not `[t2]` (the earlier fork `t3` is also a child). -/
theorem c8_counterexample :
    evidenceFor c8state "t1" "1.0.0" ≠ []
    ∧ fork c8state "t1" "1.0.0" "t2" = Except.ok c8forked
    ∧ getAncestry c8forked "t2" = ["t1", "t0"]
    ∧ getAncestry c8forked "t2" ≠ ["t1"]
    ∧ getChildren c8forked "t1" = ["t3", "t2"]
    ∧ getChildren c8forked "t1" ≠ ["t2"] := by
  refine ⟨by decide, by rfl, by decide, by decide, by decide, by decide⟩

/-- C8 witness: the amended fork theorem applied to the concrete lineage
state. -/
theorem c8_fork_lineage_witness :
    getAncestry c8forked "t2" = "t1" :: getAncestry c8state "t1"
    ∧ getChildren c8forked "t1" = getChildren c8state "t1" ++ ["t2"]
    ∧ evidenceFor c8forked "t2" "1.0.0" = [] :=
  c8_fork_lineage c8state c8t1 "t1" "1.0.0" "t2" c8forked (by decide) (by decide)
    (by decide) (by decide) (by rfl)
